import Mathlib

/-!
Armchair carbon nanotube generator and viewer state (Main.cpp)

A shallow embedding of `createArmchairNanotube`, `display`, `specialKeys` and
`keyboard` of `src/Main.cpp`, followed by theorems about the generated lattice
and about the viewer state.

Conventions of the embedding.

* `float` values live in a type `K` that is a linearly ordered field; the
  library calls `cos`, `sin` and the constants `PI`, `SQRT3` are fields of the
  configuration, so the definitions evaluate over `ℚ` and are read over `ℝ`
  where a statement speaks of exact real arithmetic.
* `int` values are `Int` (unbounded: signed overflow is undefined behaviour in
  the source and is outside the model).  The loop counters `i`, `j` of
  `for (int i = 0; i < bound; ++i)` range over `List.range bound.toNat`; they are
  natural numbers and are cast to `Int` wherever the source computes with them.
  Integer `/` and `%` are only applied to these non-negative counters, where the
  truncating operators of C++ and the operators of `Int` agree.
* `std::vector` is `List`, `emplace_back` appends at the end, `clear` gives `[]`.
* The global variables are passed explicitly: `Lattice` holds `atoms` and
  `bonds`, `View` holds the animation and camera variables.
-/

namespace Nanotube

/-- The struct `Point3D` of Main.cpp, lines 9-12. -/
structure Point3D (K : Type) where
  x : K
  y : K
  z : K

/-- The generation parameters and numeric constants of Main.cpp, lines 6-7 and
15-18, together with the two `<cmath>` functions the generator calls. -/
structure Config (K : Type) where
  n : Int
  a : K
  bondLength : K
  lengthSegments : Int
  PI : K
  SQRT3 : K
  cos : K → K
  sin : K → K

/-- The globals `atoms` and `bonds` of Main.cpp, lines 20-21. -/
structure Lattice (K : Type) where
  atoms : List (Point3D K)
  bonds : List (Int × Int)

/-- Model of `std::vector::emplace_back`: the new element goes to the end. -/
def emplace_back {α : Type} (v : List α) (x : α) : List α := v ++ [x]

/-- Model of `for (int k = 0; k < bound; ++k) body`, the body being a state
transformer that does not assign to `k`. -/
def forLoop {σ : Type} (bound : Int) (body : σ → Nat → σ) (init : σ) : σ :=
  (List.range bound.toNat).foldl body init

/-- Body of the atom loop, Main.cpp lines 36-52: the point computed for segment
`i` and column `j`. -/
def atomAt {K : Type} [Field K] (c : Config K) (i j : Nat) : Point3D K :=
  let circumference : K := (c.n : K) * c.a
  let radius : K := circumference / (2 * c.PI)
  let x_sheet : K :=
    if (j : Int) % 2 = 0 then (((j : Int) / 2 : Int) : K) * c.a
    else (((j : Int) / 2 : Int) : K) * c.a + c.a / 2
  let y_sheet : K :=
    if (j : Int) % 2 = 0 then ((i : Int) : K) * (c.SQRT3 * c.bondLength)
    else ((i : Int) : K) * (c.SQRT3 * c.bondLength) + c.bondLength * c.SQRT3 / 2
  let theta : K := x_sheet / radius
  let x : K := radius * c.cos theta
  let y : K := radius * c.sin theta
  let z : K := y_sheet - ((c.lengthSegments : K) * c.SQRT3 * c.bondLength) / 2
  Point3D.mk x y z

/-- Body of the bond loop, Main.cpp lines 58-83, as a transformer of the bond
vector. -/
def bondBody (n lengthSegments : Int) (bonds : List (Int × Int)) (i j : Nat) :
    List (Int × Int) :=
  let current : Int := (i : Int) * 2 * n + (j : Int)
  let bonds1 : List (Int × Int) :=
    if (j : Int) % 2 = 0 then
      if (j : Int) < 2 * n - 1 then emplace_back bonds (current, current + 1)
      else bonds
    else
      let next : Int := if (j : Int) = 2 * n - 1 then current - (2 * n - 1) else current + 1
      emplace_back bonds (current, next)
  if (i : Int) < lengthSegments - 1 then
    if (j : Int) % 2 = 0 then
      emplace_back bonds1 (current, current + 2 * n)
    else
      let bonds2 := emplace_back bonds1 (current, current + 2 * n - 1)
      if (j : Int) < 2 * n - 1 then emplace_back bonds2 (current, current + 2 * n + 1)
      else emplace_back bonds2 (current, current + 1)
  else bonds1

/-- The function `createArmchairNanotube` of Main.cpp, lines 27-86: both vectors
are cleared, then the atom loop and the bond loop run. -/
def createArmchairNanotube {K : Type} [Field K] (c : Config K) (_s : Lattice K) : Lattice K :=
  let atoms0 : List (Point3D K) := []
  let bonds0 : List (Int × Int) := []
  let atoms1 := forLoop c.lengthSegments
    (fun atoms i => forLoop (2 * c.n) (fun atoms j => emplace_back atoms (atomAt c i j)) atoms)
    atoms0
  let bonds1 := forLoop c.lengthSegments
    (fun bonds i => forLoop (2 * c.n) (fun bonds j => bondBody c.n c.lengthSegments bonds i j) bonds)
    bonds0
  Lattice.mk atoms1 bonds1

/-- The read `atoms[k]` that `display` performs for both ends of every bond
(Main.cpp line 186): `std::vector::operator[]` with an `int` index, defined
only for `0 ≤ k < atoms.size()`. -/
def atomLookup {K : Type} (atoms : List (Point3D K)) (k : Int) : Option (Point3D K) :=
  if 0 ≤ k then atoms[k.toNat]? else none

/-- The animation and camera globals of Main.cpp, lines 24-25 and 160-162. -/
structure View (K : Type) where
  isPaused : Bool
  rotationAngle : K
  cameraAngleX : K
  cameraAngleY : K
  cameraDistance : K

/-- The initial values of the animation and camera globals. -/
def View.initial {K : Type} [Field K] : View K := View.mk false 0 20 0 25

/-- The state change of `display`, Main.cpp lines 178-181; the literal `0.3f` is
taken as the exact fraction 3/10. -/
def display {K : Type} [LinearOrderedField K] (s : View K) : View K :=
  if !s.isPaused then
    let r : K := s.rotationAngle + 3 / 10
    let r1 : K := if r > 360 then r - 360 else r
    View.mk s.isPaused r1 s.cameraAngleX s.cameraAngleY s.cameraDistance
  else s

/-- Key code of the up arrow in `GL/glut.h`. -/
def GLUT_KEY_UP : Int := 101
/-- Key code of the down arrow in `GL/glut.h`. -/
def GLUT_KEY_DOWN : Int := 103
/-- Key code of the left arrow in `GL/glut.h`. -/
def GLUT_KEY_LEFT : Int := 100
/-- Key code of the right arrow in `GL/glut.h`. -/
def GLUT_KEY_RIGHT : Int := 102

/-- The state change of `specialKeys`, Main.cpp lines 210-228. -/
def specialKeys {K : Type} [LinearOrderedField K] (s : View K) (key : Int) : View K :=
  if key = GLUT_KEY_UP then
    let p : K := s.cameraAngleX + 2
    View.mk s.isPaused s.rotationAngle (if p > 89 then 89 else p) s.cameraAngleY s.cameraDistance
  else if key = GLUT_KEY_DOWN then
    let p : K := s.cameraAngleX - 2
    View.mk s.isPaused s.rotationAngle (if p < -89 then -89 else p) s.cameraAngleY s.cameraDistance
  else if key = GLUT_KEY_LEFT then
    View.mk s.isPaused s.rotationAngle s.cameraAngleX (s.cameraAngleY - 2) s.cameraDistance
  else if key = GLUT_KEY_RIGHT then
    View.mk s.isPaused s.rotationAngle s.cameraAngleX (s.cameraAngleY + 2) s.cameraDistance
  else s

/-- The state change of `keyboard`, Main.cpp lines 230-252; `key` is the
`unsigned char` the callback receives. -/
def keyboard {K : Type} [LinearOrderedField K] (s : View K) (key : Char) : View K :=
  if key = '+' ∨ key = '=' then
    let d : K := s.cameraDistance - 1
    View.mk s.isPaused s.rotationAngle s.cameraAngleX s.cameraAngleY (if d < 10 then 10 else d)
  else if key = '-' ∨ key = '_' then
    let d : K := s.cameraDistance + 1
    View.mk s.isPaused s.rotationAngle s.cameraAngleX s.cameraAngleY (if d > 50 then 50 else d)
  else if key = 'r' then
    View.mk s.isPaused s.rotationAngle 20 0 25
  else if key = ' ' then
    View.mk (!s.isPaused) s.rotationAngle s.cameraAngleX s.cameraAngleY s.cameraDistance
  else s

/-- The callbacks GLUT may invoke on the viewer state. -/
inductive Event where
  | frame : Event
  | special : Int → Event
  | key : Char → Event

/-- One callback invocation. -/
def step {K : Type} [LinearOrderedField K] (s : View K) : Event → View K
  | Event.frame => display s
  | Event.special k => specialKeys s k
  | Event.key k => keyboard s k

/-- The state after a finite sequence of callbacks. -/
def run {K : Type} [LinearOrderedField K] (s : View K) (es : List Event) : View K :=
  es.foldl step s

/-- The bonds the loop body appends for segment `i` and column `j`. -/
def bondsAt (n lengthSegments : Int) (i j : Nat) : List (Int × Int) :=
  bondBody n lengthSegments [] i j

/-- Number of entries of a bond list that have atom `v` as an endpoint. -/
def degree (bonds : List (Int × Int)) (v : Int) : Nat :=
  bonds.countP (fun b => decide (b.1 = v ∨ b.2 = v))

/-- Two bond entries denote the same unordered pair of atoms. -/
def sameBond (b c : Int × Int) : Prop :=
  (b.1 = c.1 ∧ b.2 = c.2) ∨ (b.1 = c.2 ∧ b.2 = c.1)

instance (b c : Int × Int) : Decidable (sameBond b c) := by
  unfold sameBond; infer_instance

/-- The generation parameters Main.cpp compiles in (lines 15-18: `n = 8`,
`a = 0.246f * 2.0f`, `bondLength = 0.142f * 2.0f`, `lengthSegments = 30`), the
decimal literals read exactly, for a given choice of the two constants and the
two `<cmath>` functions. -/
def shippedWith {K : Type} [Field K] (PI SQRT3 : K) (cos sin : K → K) : Config K :=
  Config.mk 8 (492 / 1000) (284 / 1000) 30 PI SQRT3 cos sin

/-- The compiled-in parameters over `ℚ`; the two constants and the two functions
are placeholders that the index arithmetic does not read. -/
def shipped : Config ℚ := shippedWith (355 / 113) (26 / 15) (fun _ => 1) (fun _ => 0)

/-- A bond entry with its smaller index first: the unordered pair it denotes. -/
def normBond (b : Int × Int) : Int × Int := (min b.1 b.2, max b.1 b.2)

/-- The camera part of the viewer invariant. -/
def CameraOk {K : Type} [LinearOrderedField K] (s : View K) : Prop :=
  (-89 ≤ s.cameraAngleX ∧ s.cameraAngleX ≤ 89) ∧ (10 ≤ s.cameraDistance ∧ s.cameraDistance ≤ 50)

/-- The rotation part of the viewer invariant: the closed interval. -/
def RotationOk {K : Type} [LinearOrderedField K] (s : View K) : Prop :=
  0 ≤ s.rotationAngle ∧ s.rotationAngle ≤ 360

/-! ## Loop lemmas -/

theorem foldl_append_eq {α β : Type} (body : List β → α → List β) (f : α → List β)
    (h : ∀ acc x, body acc x = acc ++ f x) (xs : List α) (init : List β) :
    xs.foldl body init = init ++ xs.flatMap f := by
  induction xs generalizing init with
  | nil => simp
  | cons x xs ih => simp [List.foldl_cons, h, ih, List.flatMap_cons, List.append_assoc]

theorem bondBody_eq (n L : Int) (bonds : List (Int × Int)) (i j : Nat) :
    bondBody n L bonds i j = bonds ++ bondsAt n L i j := by
  unfold bondsAt bondBody emplace_back
  simp only []
  split_ifs <;> simp

theorem bondsAt_eq (n L : Int) (i j : Nat) :
    bondsAt n L i j =
      (if (j : Int) % 2 = 0 then
        (if (j : Int) < 2 * n - 1 then [((i : Int) * 2 * n + j, (i : Int) * 2 * n + j + 1)] else [])
       else [((i : Int) * 2 * n + j,
              if (j : Int) = 2 * n - 1 then (i : Int) * 2 * n + j - (2 * n - 1)
              else (i : Int) * 2 * n + j + 1)])
      ++
      (if (i : Int) < L - 1 then
        (if (j : Int) % 2 = 0 then [((i : Int) * 2 * n + j, (i : Int) * 2 * n + j + 2 * n)]
         else [((i : Int) * 2 * n + j, (i : Int) * 2 * n + j + 2 * n - 1),
               ((i : Int) * 2 * n + j,
                if (j : Int) < 2 * n - 1 then (i : Int) * 2 * n + j + 2 * n + 1
                else (i : Int) * 2 * n + j + 1)])
       else []) := by
  unfold bondsAt bondBody emplace_back
  simp only []
  split_ifs <;> simp

theorem bonds_eq {K : Type} [Field K] (c : Config K) (s : Lattice K) :
    (createArmchairNanotube c s).bonds =
      (List.range c.lengthSegments.toNat).flatMap (fun i =>
        (List.range (2 * c.n).toNat).flatMap (fun j => bondsAt c.n c.lengthSegments i j)) := by
  unfold createArmchairNanotube forLoop
  simp only []
  rw [foldl_append_eq _ (fun i =>
        (List.range (2 * c.n).toNat).flatMap (fun j => bondsAt c.n c.lengthSegments i j))]
  · simp
  · intro acc i
    exact foldl_append_eq _ _ (fun acc j => bondBody_eq _ _ acc i j) _ _

theorem atoms_eq {K : Type} [Field K] (c : Config K) (s : Lattice K) :
    (createArmchairNanotube c s).atoms =
      (List.range c.lengthSegments.toNat).flatMap (fun i =>
        (List.range (2 * c.n).toNat).map (fun j => atomAt c i j)) := by
  unfold createArmchairNanotube forLoop
  simp only []
  rw [foldl_append_eq _ (fun i => (List.range (2 * c.n).toNat).map (fun j => atomAt c i j))]
  · simp
  · intro acc i
    have h := foldl_append_eq (fun atoms j => emplace_back atoms (atomAt c i j))
      (fun j => [atomAt c i j]) (fun acc j => rfl) (List.range (2 * c.n).toNat) acc
    rw [h]
    congr 1
    induction (List.range (2 * c.n).toNat) with
    | nil => rfl
    | cons x xs ih => simp [List.flatMap_cons, ih]

theorem mem_bonds_iff {K : Type} [Field K] (c : Config K) (s : Lattice K) (b : Int × Int) :
    b ∈ (createArmchairNanotube c s).bonds ↔
      ∃ i j : Nat, (i : Int) < c.lengthSegments ∧ (j : Int) < 2 * c.n ∧
        b ∈ bondsAt c.n c.lengthSegments i j := by
  rw [bonds_eq]
  simp only [List.mem_flatMap, List.mem_range, Int.lt_toNat]
  constructor
  · rintro ⟨i, hi, j, hj, hb⟩
    exact ⟨i, j, hi, hj, hb⟩
  · rintro ⟨i, j, hi, hj, hb⟩
    exact ⟨i, hi, j, hj, hb⟩

theorem grid_length {α : Type} (f : Nat → Nat → α) (L M : Nat) :
    ((List.range L).flatMap (fun i => (List.range M).map (f i))).length = L * M := by
  induction L with
  | zero => simp
  | succ L ih =>
    rw [List.range_succ, List.flatMap_append, List.length_append, ih]
    simp [Nat.succ_mul]

theorem grid_getElem? {α : Type} (f : Nat → Nat → α) (L M i j : Nat) (hi : i < L) (hj : j < M) :
    ((List.range L).flatMap (fun i => (List.range M).map (f i)))[i * M + j]? = some (f i j) := by
  induction L with
  | zero => omega
  | succ L ih =>
    rw [List.range_succ, List.flatMap_append]
    by_cases h : i < L
    · have hlt : i * M + j < ((List.range L).flatMap (fun i => (List.range M).map (f i))).length := by
        rw [grid_length]
        calc i * M + j < i * M + M := by omega
          _ = (i + 1) * M := by ring
          _ ≤ L * M := Nat.mul_le_mul_right M h
      rw [List.getElem?_append_left hlt]
      exact ih h
    · have hiL : i = L := by omega
      subst hiL
      have hge : ((List.range i).flatMap (fun i => (List.range M).map (f i))).length ≤ i * M + j := by
        rw [grid_length]; omega
      rw [List.getElem?_append_right hge, grid_length]
      simp [hj]

theorem atoms_length {K : Type} [Field K] (c : Config K) (s : Lattice K) :
    (createArmchairNanotube c s).atoms.length = c.lengthSegments.toNat * (2 * c.n).toNat := by
  rw [atoms_eq, grid_length]

/-- The products the index arithmetic needs: ring `i` starts at `i * 2 * n`, and
the ring after it still ends inside `2 * n * L`. -/
theorem ring_base_bounds (n L : Int) (i : Nat) (hn : 1 ≤ n) (hi : (i : Int) < L) :
    0 ≤ (i : Int) * 2 * n ∧ (i : Int) * 2 * n + 2 * n ≤ 2 * n * L := by
  have h0 : (0 : Int) ≤ (i : Int) := Int.ofNat_nonneg i
  constructor
  · nlinarith
  · nlinarith

theorem next_ring_bounds (n L : Int) (i : Nat) (hn : 1 ≤ n) (hi : (i : Int) < L - 1) :
    (i : Int) * 2 * n + 2 * n + 2 * n ≤ 2 * n * L := by
  have h0 : (0 : Int) ≤ (i : Int) := Int.ofNat_nonneg i
  nlinarith

/-- Every entry of `bondsAt` in explicit form. -/
theorem mem_bondsAt (n L : Int) (i j : Nat) (b : Int × Int) (hj : (j : Int) < 2 * n)
    (hb : b ∈ bondsAt n L i j) :
    b.1 = (i : Int) * 2 * n + j ∧
    ((b.2 = b.1 + 1 ∧ (j : Int) < 2 * n - 1) ∨
     (b.2 = b.1 - (2 * n - 1) ∧ (j : Int) = 2 * n - 1) ∨
     ((i : Int) < L - 1 ∧ (j : Int) % 2 = 0 ∧ b.2 = b.1 + 2 * n) ∨
     ((i : Int) < L - 1 ∧ (j : Int) % 2 = 1 ∧ b.2 = b.1 + 2 * n - 1) ∨
     ((i : Int) < L - 1 ∧ (j : Int) % 2 = 1 ∧ (j : Int) < 2 * n - 1 ∧ b.2 = b.1 + 2 * n + 1) ∨
     ((i : Int) < L - 1 ∧ (j : Int) % 2 = 1 ∧ (j : Int) = 2 * n - 1 ∧ b.2 = b.1 + 1)) := by
  rw [bondsAt_eq] at hb
  obtain ⟨p, q⟩ := b
  simp only [List.mem_append] at hb
  rcases hb with hb | hb
  · split_ifs at hb with h1 h2 h3
    · simp only [List.mem_singleton, Prod.mk.injEq] at hb
      obtain ⟨rfl, rfl⟩ := hb
      exact ⟨rfl, Or.inl ⟨rfl, h2⟩⟩
    · simp at hb
    · simp only [List.mem_singleton, Prod.mk.injEq] at hb
      obtain ⟨rfl, rfl⟩ := hb
      exact ⟨rfl, Or.inr (Or.inl ⟨rfl, h3⟩)⟩
    · simp only [List.mem_singleton, Prod.mk.injEq] at hb
      obtain ⟨rfl, rfl⟩ := hb
      refine ⟨rfl, Or.inl ⟨rfl, ?_⟩⟩
      omega
  · split_ifs at hb with h1 h2 h3
    · simp only [List.mem_singleton, Prod.mk.injEq] at hb
      obtain ⟨rfl, rfl⟩ := hb
      exact ⟨rfl, Or.inr (Or.inr (Or.inl ⟨h1, h2, rfl⟩))⟩
    · simp only [List.mem_cons, Prod.mk.injEq, List.mem_singleton, List.not_mem_nil,
        or_false] at hb
      have hodd : (j : Int) % 2 = 1 := by omega
      rcases hb with ⟨rfl, rfl⟩ | ⟨rfl, rfl⟩
      · exact ⟨rfl, Or.inr (Or.inr (Or.inr (Or.inl ⟨h1, hodd, rfl⟩)))⟩
      · exact ⟨rfl, Or.inr (Or.inr (Or.inr (Or.inr (Or.inl ⟨h1, hodd, h3, rfl⟩))))⟩
    · simp only [List.mem_cons, Prod.mk.injEq, List.mem_singleton, List.not_mem_nil,
        or_false] at hb
      have hodd : (j : Int) % 2 = 1 := by omega
      rcases hb with ⟨rfl, rfl⟩ | ⟨rfl, rfl⟩
      · exact ⟨rfl, Or.inr (Or.inr (Or.inr (Or.inl ⟨h1, hodd, rfl⟩)))⟩
      · refine ⟨rfl, Or.inr (Or.inr (Or.inr (Or.inr (Or.inr ⟨h1, hodd, ?_, rfl⟩))))⟩
        omega
    · simp at hb

/-- C1. For `n ≥ 1` and `L ≥ 1`, whatever the two vectors held before, every
entry `(p, q)` of the bond vector built by `createArmchairNanotube` has
`0 ≤ p < 2*n*L` and `0 ≤ q < 2*n*L`, and both are below the length of the atom
vector, so the reads `atoms[bond.first]` and `atoms[bond.second]` in `display`
are in bounds. -/
theorem bond_indices_in_bounds {K : Type} [Field K] (c : Config K) (s : Lattice K)
    (hn : 1 ≤ c.n) (hL : 1 ≤ c.lengthSegments) :
    ∀ b ∈ (createArmchairNanotube c s).bonds,
      (0 ≤ b.1 ∧ b.1 < 2 * c.n * c.lengthSegments) ∧
      (0 ≤ b.2 ∧ b.2 < 2 * c.n * c.lengthSegments) ∧
      (atomLookup (createArmchairNanotube c s).atoms b.1).isSome = true ∧
      (atomLookup (createArmchairNanotube c s).atoms b.2).isSome = true := by
  intro b hb
  obtain ⟨i, j, hi, hj, hmem⟩ := (mem_bonds_iff c s b).1 hb
  obtain ⟨h1, h2⟩ := mem_bondsAt c.n c.lengthSegments i j b hj hmem
  obtain ⟨hb0, hb1⟩ := ring_base_bounds c.n c.lengthSegments i hn hi
  have hj0 : (0 : Int) ≤ (j : Int) := Int.ofNat_nonneg j
  have hlen : ((createArmchairNanotube c s).atoms.length : Int) = 2 * c.n * c.lengthSegments := by
    rw [atoms_length]
    push_cast
    rw [Int.toNat_of_nonneg (by omega), Int.toNat_of_nonneg (by omega)]
    ring
  have key : (0 ≤ b.1 ∧ b.1 < 2 * c.n * c.lengthSegments) ∧
      (0 ≤ b.2 ∧ b.2 < 2 * c.n * c.lengthSegments) := by
    rcases h2 with h | h | h | h | h | h
    · omega
    · omega
    · have := next_ring_bounds c.n c.lengthSegments i hn h.1
      omega
    · have := next_ring_bounds c.n c.lengthSegments i hn h.1
      omega
    · have := next_ring_bounds c.n c.lengthSegments i hn h.1
      omega
    · have := next_ring_bounds c.n c.lengthSegments i hn h.1
      omega
  have hlook : ∀ k : Int, 0 ≤ k → k < 2 * c.n * c.lengthSegments →
      (atomLookup (createArmchairNanotube c s).atoms k).isSome = true := by
    intro k hk0 hk1
    have hlt : k.toNat < (createArmchairNanotube c s).atoms.length := by omega
    unfold atomLookup
    rw [if_pos hk0, List.getElem?_eq_getElem hlt]
    rfl
  exact ⟨key.1, key.2, hlook b.1 key.1.1 key.1.2, hlook b.2 key.2.1 key.2.2⟩

/-- Witness for C1: the parameters Main.cpp compiles in (n = 8, L = 30),
starting from empty vectors. -/
theorem bond_indices_in_bounds_witness :
    (1 ≤ shipped.n ∧ 1 ≤ shipped.lengthSegments) ∧
    ∀ b ∈ (createArmchairNanotube shipped (Lattice.mk [] [])).bonds,
      (0 ≤ b.1 ∧ b.1 < 2 * shipped.n * shipped.lengthSegments) ∧
      (0 ≤ b.2 ∧ b.2 < 2 * shipped.n * shipped.lengthSegments) ∧
      (atomLookup (createArmchairNanotube shipped (Lattice.mk [] [])).atoms b.1).isSome = true ∧
      (atomLookup (createArmchairNanotube shipped (Lattice.mk [] [])).atoms b.2).isSome = true :=
  ⟨⟨by decide, by decide⟩,
    bond_indices_in_bounds shipped (Lattice.mk [] []) (by decide) (by decide)⟩

/-- C2. For `n ≥ 1` and `L ≥ 1`, whatever the atom vector held before,
`createArmchairNanotube` leaves it with exactly `L * 2 * n` entries, and the
atom computed for segment `i < L` and column `j < 2n` is the entry at index
`i * 2 * n + j`; for the compiled-in parameters (n = 8, L = 30) the count is
480. -/
theorem atom_count_and_index {K : Type} [Field K] (c : Config K) (s : Lattice K)
    (hn : 1 ≤ c.n) (hL : 1 ≤ c.lengthSegments) :
    ((createArmchairNanotube c s).atoms.length : Int) = c.lengthSegments * 2 * c.n ∧
    (∀ i j : Nat, (i : Int) < c.lengthSegments → (j : Int) < 2 * c.n →
      (createArmchairNanotube c s).atoms[((i : Int) * 2 * c.n + (j : Int)).toNat]? =
        some (atomAt c i j)) ∧
    (c.n = 8 → c.lengthSegments = 30 → (createArmchairNanotube c s).atoms.length = 480) := by
  have hlen : ((createArmchairNanotube c s).atoms.length : Int) = c.lengthSegments * 2 * c.n := by
    rw [atoms_length]
    push_cast
    rw [Int.toNat_of_nonneg (by omega), Int.toNat_of_nonneg (by omega)]
    ring
  refine ⟨hlen, ?_, ?_⟩
  · intro i j hi hj
    have hidx : ((i : Int) * 2 * c.n + (j : Int)).toNat = i * (2 * c.n).toNat + j := by
      have h2n : ((2 * c.n).toNat : Int) = 2 * c.n := Int.toNat_of_nonneg (by omega)
      have : (i : Int) * 2 * c.n + (j : Int) = ((i * (2 * c.n).toNat + j : Nat) : Int) := by
        push_cast
        rw [h2n]
        ring
      rw [this, Int.toNat_ofNat]
    rw [hidx, atoms_eq]
    exact grid_getElem? (fun i j => atomAt c i j) _ _ i j (by omega) (by omega)
  · intro h8 h30
    rw [h8, h30] at hlen
    omega

/-- Witness for C2: the compiled-in parameters, starting from vectors that
already hold an atom and a bond. -/
theorem atom_count_and_index_witness :
    (1 ≤ shipped.n ∧ 1 ≤ shipped.lengthSegments) ∧
    (createArmchairNanotube shipped (Lattice.mk [Point3D.mk 1 2 3] [(7, 7)])).atoms.length = 480 :=
  ⟨⟨by decide, by decide⟩,
    (atom_count_and_index shipped (Lattice.mk [Point3D.mk 1 2 3] [(7, 7)])
      (by decide) (by decide)).2.2 rfl rfl⟩

/-- C3. For `n ≥ 1` and `L ≥ 1` no entry `(p, q)` of the bond vector built by
`createArmchairNanotube` has `p = q`; this covers the entries appended by the
wrap-around branches taken at `j = 2n - 1`. -/
theorem no_self_bonds {K : Type} [Field K] (c : Config K) (s : Lattice K)
    (hn : 1 ≤ c.n) (_hL : 1 ≤ c.lengthSegments) :
    ∀ b ∈ (createArmchairNanotube c s).bonds, b.1 ≠ b.2 := by
  intro b hb
  obtain ⟨i, j, _, hj, hmem⟩ := (mem_bonds_iff c s b).1 hb
  obtain ⟨_, h2⟩ := mem_bondsAt c.n c.lengthSegments i j b hj hmem
  rcases h2 with h | h | h | h | h | h <;> omega

/-- Witness for C3: the compiled-in parameters. -/
theorem no_self_bonds_witness :
    (1 ≤ shipped.n ∧ 1 ≤ shipped.lengthSegments) ∧
    ∀ b ∈ (createArmchairNanotube shipped (Lattice.mk [] [])).bonds, b.1 ≠ b.2 :=
  ⟨⟨by decide, by decide⟩, no_self_bonds shipped (Lattice.mk [] []) (by decide) (by decide)⟩

/-- The ring bond of column `j` is among the entries the loop body appends. -/
theorem ring_bond_mem_bondsAt (n L : Int) (i j : Nat) (hj : (j : Int) < 2 * n) :
    ((i : Int) * 2 * n + (j : Int), (i : Int) * 2 * n + ((j : Int) + 1) % (2 * n)) ∈
      bondsAt n L i j := by
  have hj0 : (0 : Int) ≤ (j : Int) := Int.ofNat_nonneg j
  rw [bondsAt_eq]
  apply List.mem_append_left
  by_cases hlast : (j : Int) = 2 * n - 1
  · have hmod : ((j : Int) + 1) % (2 * n) = 0 := by
      have : (j : Int) + 1 = 2 * n := by omega
      rw [this, Int.emod_self]
    have hodd : ¬ (j : Int) % 2 = 0 := by omega
    rw [if_neg hodd, if_pos hlast, hmod]
    simp only [List.mem_singleton, Prod.mk.injEq, true_and]
    omega
  · have hmod : ((j : Int) + 1) % (2 * n) = (j : Int) + 1 :=
      Int.emod_eq_of_lt (by omega) (by omega)
    rw [hmod]
    by_cases hev : (j : Int) % 2 = 0
    · rw [if_pos hev, if_pos (by omega)]
      simp only [List.mem_singleton, Prod.mk.injEq, true_and]
      omega
    · rw [if_neg hev, if_neg hlast]
      simp only [List.mem_singleton, Prod.mk.injEq, true_and]
      omega

/-- C9. For `n ≥ 1`, `L ≥ 1`, every ring `i < L` and every column `j < 2n`, the
bond vector built by `createArmchairNanotube` contains the entry
`(i*2n + j, i*2n + ((j+1) mod 2n))`: each atom is bonded to the next atom of
its ring and the atom at `j = 2n-1` is bonded back to the atom at `j = 0`. -/
theorem ring_closure {K : Type} [Field K] (c : Config K) (s : Lattice K)
    (_hn : 1 ≤ c.n) (_hL : 1 ≤ c.lengthSegments) (i j : Nat)
    (hi : (i : Int) < c.lengthSegments) (hj : (j : Int) < 2 * c.n) :
    ((i : Int) * 2 * c.n + (j : Int), (i : Int) * 2 * c.n + ((j : Int) + 1) % (2 * c.n)) ∈
      (createArmchairNanotube c s).bonds ∧
    ((j : Int) = 2 * c.n - 1 →
      ((i : Int) * 2 * c.n + (j : Int), (i : Int) * 2 * c.n) ∈
        (createArmchairNanotube c s).bonds) := by
  have hmem := (mem_bonds_iff c s _).2
    ⟨i, j, hi, hj, ring_bond_mem_bondsAt c.n c.lengthSegments i j hj⟩
  refine ⟨hmem, ?_⟩
  intro hlast
  have hmod : ((j : Int) + 1) % (2 * c.n) = 0 := by
    have : (j : Int) + 1 = 2 * c.n := by omega
    rw [this, Int.emod_self]
  rw [hmod, add_zero] at hmem
  exact hmem

/-- Witness for C9: the last column (j = 15) of ring 29 of the compiled-in tube
is bonded back to column 0 of that ring. -/
theorem ring_closure_witness :
    (1 ≤ shipped.n ∧ 1 ≤ shipped.lengthSegments ∧ ((29 : Nat) : Int) < shipped.lengthSegments ∧
      ((15 : Nat) : Int) < 2 * shipped.n) ∧
    ((479 : Int), (464 : Int)) ∈ (createArmchairNanotube shipped (Lattice.mk [] [])).bonds :=
  ⟨⟨by decide, by decide, by decide, by decide⟩,
    (ring_closure shipped (Lattice.mk [] []) (by decide) (by decide) 29 15
      (by decide) (by decide)).2 (by decide)⟩

/-! ## Viewer state -/

theorem run_append {K : Type} [LinearOrderedField K] (s : View K) (es fs : List Event) :
    run s (es ++ fs) = run (run s es) fs := by
  simp [run, List.foldl_append]

theorem run_invariant {K : Type} [LinearOrderedField K] (P : View K → Prop)
    (hstep : ∀ s e, P s → P (step s e)) (s : View K) (hs : P s) (es : List Event) :
    P (run s es) := by
  induction es generalizing s with
  | nil => exact hs
  | cons e es ih => exact ih (step s e) (hstep s e hs)

theorem cameraOk_step {K : Type} [LinearOrderedField K] (s : View K) (e : Event)
    (h : CameraOk s) : CameraOk (step s e) := by
  obtain ⟨⟨h1, h2⟩, h3, h4⟩ := h
  cases e with
  | frame =>
    unfold step display CameraOk
    split_ifs <;> exact ⟨⟨h1, h2⟩, h3, h4⟩
  | special k =>
    unfold step specialKeys CameraOk
    simp only []
    split_ifs <;> refine ⟨⟨?_, ?_⟩, ?_, ?_⟩ <;> norm_num <;> linarith
  | key k =>
    unfold step keyboard CameraOk
    simp only []
    split_ifs <;> refine ⟨⟨?_, ?_⟩, ?_, ?_⟩ <;> norm_num <;> linarith

theorem rotationOk_step {K : Type} [LinearOrderedField K] (s : View K) (e : Event)
    (h : RotationOk s) : RotationOk (step s e) := by
  obtain ⟨h1, h2⟩ := h
  cases e with
  | frame =>
    unfold step display RotationOk
    simp only []
    split_ifs <;> constructor <;> linarith
  | special k =>
    unfold step specialKeys RotationOk
    simp only []
    split_ifs <;> exact ⟨h1, h2⟩
  | key k =>
    unfold step keyboard RotationOk
    simp only []
    split_ifs <;> exact ⟨h1, h2⟩

/-- C7. In every state reached from the default viewer state (pitch 20, yaw 0,
distance 25) by a finite sequence of callbacks (`specialKeys` and `keyboard`
with any key code, frames included), `cameraAngleX` lies in [-89, 89] and
`cameraDistance` in [10, 50]; in particular any number of UP presses leaves the
pitch at most 89 and any number of '+' or '=' presses leaves the distance at
least 10. -/
theorem camera_clamps {K : Type} [LinearOrderedField K] (es : List Event) :
    ((-89 ≤ (run (View.initial : View K) es).cameraAngleX ∧
        (run (View.initial : View K) es).cameraAngleX ≤ 89) ∧
      (10 ≤ (run (View.initial : View K) es).cameraDistance ∧
        (run (View.initial : View K) es).cameraDistance ≤ 50)) ∧
    (∀ k : Nat,
      (run (run (View.initial : View K) es)
        (List.replicate k (Event.special GLUT_KEY_UP))).cameraAngleX ≤ 89) ∧
    (∀ k : Nat, ∀ ch : Char, ch = '+' ∨ ch = '=' →
      10 ≤ (run (run (View.initial : View K) es)
        (List.replicate k (Event.key ch))).cameraDistance) := by
  have hinit : CameraOk (View.initial : View K) := by
    unfold CameraOk View.initial
    norm_num
  have hall : ∀ fs : List Event, CameraOk (run (View.initial : View K) fs) :=
    fun fs => run_invariant CameraOk cameraOk_step _ hinit fs
  refine ⟨hall es, ?_, ?_⟩
  · intro k
    rw [← run_append]
    exact (hall _).1.2
  · intro k ch _
    rw [← run_append]
    exact (hall _).2.1

/-- The rotation angle after `k ≤ 1200` frames from the initial state. -/
theorem run_frames (k : Nat) (hk : k ≤ 1200) :
    run (View.initial : View ℚ) (List.replicate k Event.frame) =
      View.mk false (3 * (k : ℚ) / 10) 20 0 25 := by
  induction k with
  | zero => simp [run, View.initial]
  | succ k ih =>
    rw [List.replicate_succ', run_append, ih (by omega)]
    have hk1 : ((k : ℚ) + 1) ≤ 1200 := by exact_mod_cast hk
    have hle : ¬ (3 * (k : ℚ) / 10 + 3 / 10 > 360) := by
      rw [not_lt]; linarith
    simp only [run, List.foldl_cons, List.foldl_nil, step, display, Bool.not_false, if_true,
      if_neg hle]
    congr 1
    push_cast
    ring

/-- Counterexample to C6 as stated: the state after 1199 frames is reachable
and not paused, and one more frame leaves `rotationAngle` at exactly 360, which
is outside the half-open interval [0, 360). -/
theorem rotation_wrap_reaches_360 :
    (run (View.initial : View ℚ) (List.replicate 1199 Event.frame)).isPaused = false ∧
    (display (run (View.initial : View ℚ) (List.replicate 1199 Event.frame))).rotationAngle
      = 360 ∧
    ¬ ((display (run (View.initial : View ℚ) (List.replicate 1199 Event.frame))).rotationAngle
      < 360) := by
  have h := run_frames 1199 (by norm_num)
  generalize run (View.initial : View ℚ) (List.replicate 1199 Event.frame) = s at h
  subst h
  have hle : ¬ (3 * ((1199 : Nat) : ℚ) / 10 + 3 / 10 > 360) := by norm_num
  have hd : (display (View.mk false (3 * ((1199 : Nat) : ℚ) / 10) 20 0 25)).rotationAngle =
      360 := by
    simp only [display, Bool.not_false, if_true, if_neg hle]
    norm_num
  refine ⟨rfl, hd, ?_⟩
  rw [hd]
  exact lt_irrefl _

/-- C6, amended. In every state reached from the initial state
(`rotationAngle = 0`, not paused) by a finite sequence of callbacks, with the
per-frame step taken as exactly 3/10: `rotationAngle` lies in the closed
interval [0, 360]; a frame while paused leaves it unchanged; a frame while not
paused adds 3/10 and subtracts 360 when the sum is greater than 360, which
leaves the angle in (0, 360]. -/
theorem rotation_wrap_closed {K : Type} [LinearOrderedField K] (es : List Event) :
    (0 ≤ (run (View.initial : View K) es).rotationAngle ∧
      (run (View.initial : View K) es).rotationAngle ≤ 360) ∧
    ((run (View.initial : View K) es).isPaused = true →
      (display (run (View.initial : View K) es)).rotationAngle =
        (run (View.initial : View K) es).rotationAngle) ∧
    ((run (View.initial : View K) es).isPaused = false →
      (display (run (View.initial : View K) es)).rotationAngle =
        (if (run (View.initial : View K) es).rotationAngle + 3 / 10 > 360
          then (run (View.initial : View K) es).rotationAngle + 3 / 10 - 360
          else (run (View.initial : View K) es).rotationAngle + 3 / 10) ∧
      0 < (display (run (View.initial : View K) es)).rotationAngle ∧
      (display (run (View.initial : View K) es)).rotationAngle ≤ 360) := by
  have hinit : RotationOk (View.initial : View K) := by
    unfold RotationOk View.initial
    norm_num
  have hs : RotationOk (run (View.initial : View K) es) :=
    run_invariant RotationOk rotationOk_step _ hinit es
  generalize run (View.initial : View K) es = s at hs
  obtain ⟨h0, h1⟩ := hs
  refine ⟨⟨h0, h1⟩, ?_, ?_⟩
  · intro hp
    simp [display, hp]
  · intro hp
    have hd : (display s).rotationAngle =
        (if s.rotationAngle + 3 / 10 > 360 then s.rotationAngle + 3 / 10 - 360
          else s.rotationAngle + 3 / 10) := by
      simp [display, hp]
    rw [hd]
    refine ⟨rfl, ?_, ?_⟩
    · split_ifs <;> linarith
    · split_ifs <;> linarith

/-- Witness for C6, amended: after one frame and a press of the space bar the
viewer is paused and a further frame leaves the angle unchanged; after the
space bar is pressed again the viewer is not paused and a further frame leaves
the angle in (0, 360]. -/
theorem rotation_wrap_closed_witness :
    ((run (View.initial : View ℚ) [Event.frame, Event.key ' ']).isPaused = true ∧
      (display (run (View.initial : View ℚ) [Event.frame, Event.key ' '])).rotationAngle =
        (run (View.initial : View ℚ) [Event.frame, Event.key ' ']).rotationAngle) ∧
    ((run (View.initial : View ℚ) [Event.frame, Event.key ' ', Event.key ' ']).isPaused = false ∧
      0 < (display (run (View.initial : View ℚ)
        [Event.frame, Event.key ' ', Event.key ' '])).rotationAngle ∧
      (display (run (View.initial : View ℚ)
        [Event.frame, Event.key ' ', Event.key ' '])).rotationAngle ≤ 360) :=
  ⟨⟨rfl, (rotation_wrap_closed [Event.frame, Event.key ' ']).2.1 rfl⟩,
    ⟨rfl, ((rotation_wrap_closed [Event.frame, Event.key ' ', Event.key ' ']).2.2 rfl).2⟩⟩

/-! ## Geometry of the atoms -/

theorem mem_atoms_iff {K : Type} [Field K] (c : Config K) (s : Lattice K) (p : Point3D K) :
    p ∈ (createArmchairNanotube c s).atoms ↔
      ∃ i j : Nat, (i : Int) < c.lengthSegments ∧ (j : Int) < 2 * c.n ∧ p = atomAt c i j := by
  rw [atoms_eq]
  simp only [List.mem_flatMap, List.mem_range, List.mem_map, Int.lt_toNat]
  constructor
  · rintro ⟨i, hi, j, hj, hp⟩
    exact ⟨i, j, hi, hj, hp.symm⟩
  · rintro ⟨i, j, hi, hj, hp⟩
    exact ⟨i, hi, j, hj, hp.symm⟩

/-- The axial coordinate the atom loop computes. -/
theorem atomAt_z {K : Type} [Field K] (c : Config K) (i j : Nat) :
    (atomAt c i j).z =
      (if (j : Int) % 2 = 0 then ((i : Int) : K) * (c.SQRT3 * c.bondLength)
       else ((i : Int) : K) * (c.SQRT3 * c.bondLength) + c.bondLength * c.SQRT3 / 2)
      - ((c.lengthSegments : K) * c.SQRT3 * c.bondLength) / 2 := rfl

/-- Sum of the axial coordinate over one ring of `2 * N` atoms. -/
theorem ring_z_sum {K : Type} [LinearOrderedField K] (c : Config K) (i N : Nat) :
    ((List.range (2 * N)).map (fun j => (atomAt c i j).z)).sum =
      (N : K) * (2 * (i : K) * (c.SQRT3 * c.bondLength) + c.bondLength * c.SQRT3 / 2
        - (c.lengthSegments : K) * c.SQRT3 * c.bondLength) := by
  induction N with
  | zero => simp
  | succ N ih =>
    have h2 : 2 * (N + 1) = 2 * N + 1 + 1 := by ring
    have hev : ((2 * N : Nat) : Int) % 2 = 0 := by omega
    have hodd : ¬ ((2 * N + 1 : Nat) : Int) % 2 = 0 := by omega
    rw [h2, List.range_succ, List.range_succ]
    simp only [List.map_append, List.map_cons, List.map_nil, List.sum_append, List.sum_cons,
      List.sum_nil]
    rw [ih]
    simp only [atomAt_z, if_pos hev, if_neg hodd]
    push_cast
    ring

/-- Sum of the axial coordinate over the first `L` rings of `2 * N` atoms. -/
theorem grid_z_sum {K : Type} [LinearOrderedField K] (c : Config K) (L N : Nat) :
    (((List.range L).flatMap (fun i => (List.range (2 * N)).map (fun j => atomAt c i j))).map
        Point3D.z).sum =
      (N : K) * ((L : K) * ((L : K) - 1) * (c.SQRT3 * c.bondLength)
        + (L : K) * (c.bondLength * c.SQRT3 / 2)
        - (L : K) * ((c.lengthSegments : K) * c.SQRT3 * c.bondLength)) := by
  induction L with
  | zero => simp
  | succ L ih =>
    rw [List.range_succ, List.flatMap_append, List.map_append, List.sum_append, ih]
    simp only [List.flatMap_cons, List.flatMap_nil, List.append_nil, List.map_map]
    have hr := ring_z_sum c L N
    simp only [Function.comp_def]
    rw [hr]
    push_cast
    ring

/-- Sum of the axial coordinate over all atoms `createArmchairNanotube` builds. -/
theorem atoms_z_sum {K : Type} [LinearOrderedField K] (c : Config K) (s : Lattice K)
    (hn : 0 ≤ c.n) (hL : 0 ≤ c.lengthSegments) :
    (((createArmchairNanotube c s).atoms).map Point3D.z).sum =
      -((c.n : K) * (c.lengthSegments : K) * (c.SQRT3 * c.bondLength)) / 2 := by
  have h2n : (2 * c.n).toNat = 2 * c.n.toNat := by omega
  have hnK : ((c.n.toNat : Nat) : K) = (c.n : K) := by
    have : ((c.n.toNat : Nat) : Int) = c.n := Int.toNat_of_nonneg hn
    exact_mod_cast congrArg (fun z : Int => (z : K)) this
  have hLK : ((c.lengthSegments.toNat : Nat) : K) = (c.lengthSegments : K) := by
    have : ((c.lengthSegments.toNat : Nat) : Int) = c.lengthSegments := Int.toNat_of_nonneg hL
    exact_mod_cast congrArg (fun z : Int => (z : K)) this
  rw [atoms_eq, h2n, grid_z_sum, hnK, hLK]
  ring

/-- Mean of the axial coordinate over all atoms, for `n ≥ 1` and `L ≥ 1`. -/
theorem atoms_z_mean {K : Type} [LinearOrderedField K] (c : Config K) (s : Lattice K)
    (hn : 1 ≤ c.n) (hL : 1 ≤ c.lengthSegments) :
    (((createArmchairNanotube c s).atoms).map Point3D.z).sum /
        ((createArmchairNanotube c s).atoms.length : K) =
      -(c.SQRT3 * c.bondLength) / 4 := by
  have hlen : (((createArmchairNanotube c s).atoms.length : Nat) : K) =
      (c.lengthSegments : K) * (2 * (c.n : K)) := by
    have h1 : (((createArmchairNanotube c s).atoms.length : Nat) : Int) =
        c.lengthSegments * (2 * c.n) := by
      rw [atoms_length]
      push_cast
      rw [Int.toNat_of_nonneg (by omega), Int.toNat_of_nonneg (by omega)]
    have h2 := congrArg (fun z : Int => (z : K)) h1
    simpa using h2
  have hn0 : (c.n : K) ≠ 0 := by
    have : (0 : K) < (c.n : K) := by exact_mod_cast (by omega : (0 : Int) < c.n)
    exact ne_of_gt this
  have hL0 : (c.lengthSegments : K) ≠ 0 := by
    have : (0 : K) < (c.lengthSegments : K) := by
      exact_mod_cast (by omega : (0 : Int) < c.lengthSegments)
    exact ne_of_gt this
  rw [atoms_z_sum c s (by omega) (by omega), hlen]
  field_simp
  ring

/-- C4, evaluated on the code. With the compiled-in parameters (n = 8, L = 30,
b = 0.284) and exact real arithmetic (`SQRT3 = √3`), the arithmetic mean of the
z coordinate over the 480 atoms built by `createArmchairNanotube` is
`-(√3 * b) / 4`, which is not zero: subtracting `L * √3 * b / 2` leaves the tube
a quarter of the ring spacing off centre. -/
theorem centering_mean_shipped :
    ((((createArmchairNanotube (shippedWith Real.pi (Real.sqrt 3) Real.cos Real.sin)
          (Lattice.mk [] [])).atoms).map Point3D.z).sum /
        (((createArmchairNanotube (shippedWith Real.pi (Real.sqrt 3) Real.cos Real.sin)
          (Lattice.mk [] [])).atoms.length : Nat) : ℝ) =
      -(Real.sqrt 3 * (284 / 1000)) / 4) ∧
    ((((createArmchairNanotube (shippedWith Real.pi (Real.sqrt 3) Real.cos Real.sin)
          (Lattice.mk [] [])).atoms).map Point3D.z).sum /
        (((createArmchairNanotube (shippedWith Real.pi (Real.sqrt 3) Real.cos Real.sin)
          (Lattice.mk [] [])).atoms.length : Nat) : ℝ) ≠ 0) := by
  have h := atoms_z_mean (shippedWith Real.pi (Real.sqrt 3) Real.cos Real.sin)
    (Lattice.mk [] []) (by simp [shippedWith]) (by simp [shippedWith])
  have hval : (shippedWith Real.pi (Real.sqrt 3) Real.cos Real.sin).SQRT3 *
      (shippedWith Real.pi (Real.sqrt 3) Real.cos Real.sin).bondLength =
      Real.sqrt 3 * (284 / 1000) := rfl
  rw [hval] at h
  refine ⟨h, ?_⟩
  rw [h]
  have hs : 0 < Real.sqrt 3 := Real.sqrt_pos.2 (by norm_num)
  have : 0 < Real.sqrt 3 * (284 / 1000) := by positivity
  linarith

/-- The atom of segment `i` and column `j` lies at distance `|radius|` from the
tube axis whenever the two functions satisfy the Pythagorean identity. -/
theorem atomAt_radius_sq (c : Config ℝ) (i j : Nat)
    (hcs : ∀ t, c.cos t ^ 2 + c.sin t ^ 2 = 1) :
    (atomAt c i j).x ^ 2 + (atomAt c i j).y ^ 2 = ((c.n : ℝ) * c.a / (2 * c.PI)) ^ 2 := by
  simp only [atomAt]
  generalize (if (j : Int) % 2 = 0 then (((j : Int) / 2 : Int) : ℝ) * c.a
      else (((j : Int) / 2 : Int) : ℝ) * c.a + c.a / 2) / ((c.n : ℝ) * c.a / (2 * c.PI)) = t
  have := hcs t
  linear_combination ((c.n : ℝ) * c.a / (2 * c.PI)) ^ 2 * this

/-- C5. For `n ≥ 1`, `L ≥ 1` and `a > 0`, with the coordinates computed in exact
real arithmetic (`PI = π`, `cos` and `sin` the real functions), every atom
`(x, y, z)` built by `createArmchairNanotube` has `sqrt (x^2 + y^2) = r` with
`r = (n * a) / (2 * π)`, whatever its segment and column. -/
theorem radius_invariant (c : Config ℝ) (s : Lattice ℝ)
    (hn : 1 ≤ c.n) (_hL : 1 ≤ c.lengthSegments) (ha : 0 < c.a)
    (hpi : c.PI = Real.pi) (hcos : c.cos = Real.cos) (hsin : c.sin = Real.sin) :
    ∀ p ∈ (createArmchairNanotube c s).atoms,
      Real.sqrt (p.x ^ 2 + p.y ^ 2) = ((c.n : ℝ) * c.a) / (2 * Real.pi) := by
  intro p hp
  obtain ⟨i, j, _, _, rfl⟩ := (mem_atoms_iff c s p).1 hp
  have hcs : ∀ t, c.cos t ^ 2 + c.sin t ^ 2 = 1 := by
    intro t
    rw [hcos, hsin]
    exact Real.cos_sq_add_sin_sq t
  rw [atomAt_radius_sq c i j hcs, hpi]
  have hn0 : (0 : ℝ) < (c.n : ℝ) := by exact_mod_cast (by omega : (0 : Int) < c.n)
  have hr : 0 ≤ (c.n : ℝ) * c.a / (2 * Real.pi) := by
    have := Real.pi_pos
    positivity
  exact Real.sqrt_sq hr

/-- Witness for C5: the compiled-in parameters over the reals. -/
theorem radius_invariant_witness :
    (1 ≤ (shippedWith Real.pi (Real.sqrt 3) Real.cos Real.sin).n ∧
      1 ≤ (shippedWith Real.pi (Real.sqrt 3) Real.cos Real.sin).lengthSegments ∧
      0 < (shippedWith Real.pi (Real.sqrt 3) Real.cos Real.sin).a) ∧
    ∀ p ∈ (createArmchairNanotube (shippedWith Real.pi (Real.sqrt 3) Real.cos Real.sin)
        (Lattice.mk [] [])).atoms,
      Real.sqrt (p.x ^ 2 + p.y ^ 2) = ((8 : Int) : ℝ) * (492 / 1000) / (2 * Real.pi) :=
  ⟨⟨by simp [shippedWith], by simp [shippedWith], by simp [shippedWith]⟩,
    radius_invariant (shippedWith Real.pi (Real.sqrt 3) Real.cos Real.sin) (Lattice.mk [] [])
      (by simp [shippedWith]) (by simp [shippedWith]) (by simp [shippedWith]) rfl rfl rfl⟩

/-! ## Distinctness of the bonds -/

/-- How the first indices of two rings compare. -/
theorem base_sep (n : Int) (i1 i2 : Nat) (hn : 1 ≤ n) :
    (i1 = i2 ∧ (i1 : Int) * 2 * n = (i2 : Int) * 2 * n) ∨
    (i1 < i2 ∧ (i1 : Int) * 2 * n + 2 * n ≤ (i2 : Int) * 2 * n) ∨
    (i2 < i1 ∧ (i2 : Int) * 2 * n + 2 * n ≤ (i1 : Int) * 2 * n) := by
  rcases Nat.lt_trichotomy i1 i2 with h | h | h
  · right; left
    refine ⟨h, ?_⟩
    have : (i1 : Int) + 1 ≤ (i2 : Int) := by exact_mod_cast h
    nlinarith
  · left
    exact ⟨h, by rw [h]⟩
  · right; right
    refine ⟨h, ?_⟩
    have : (i2 : Int) + 1 ≤ (i1 : Int) := by exact_mod_cast h
    nlinarith

theorem normBond_eq_iff (b d : Int × Int) : normBond b = normBond d ↔ sameBond b d := by
  obtain ⟨p, q⟩ := b
  obtain ⟨r, t⟩ := d
  simp only [normBond, sameBond, Prod.mk.injEq]
  constructor
  · rintro ⟨h1, h2⟩
    omega
  · intro h
    omega

/-- Entries appended for two different cells of the grid never denote the same
unordered pair, when `n ≥ 2`. -/
theorem bondsAt_cells_distinct (n L : Int) (i1 j1 i2 j2 : Nat) (hn : 2 ≤ n)
    (hj1 : (j1 : Int) < 2 * n) (hj2 : (j2 : Int) < 2 * n) (hne : i1 ≠ i2 ∨ j1 ≠ j2)
    (x y : Int × Int) (hx : x ∈ bondsAt n L i1 j1) (hy : y ∈ bondsAt n L i2 j2) :
    ¬ sameBond x y := by
  obtain ⟨hx1, hx2⟩ := mem_bondsAt n L i1 j1 x hj1 hx
  obtain ⟨hy1, hy2⟩ := mem_bondsAt n L i2 j2 y hj2 hy
  have hsep := base_sep n i1 i2 (by omega)
  unfold sameBond
  rcases hx2 with h | h | h | h | h | h <;>
    rcases hy2 with g | g | g | g | g | g <;> omega

/-- The entries appended for one cell denote pairwise different unordered
pairs, when `n ≥ 2`. -/
theorem bondsAt_pairwise (n L : Int) (i j : Nat) (hn : 2 ≤ n) (hj : (j : Int) < 2 * n) :
    (bondsAt n L i j).Pairwise (fun b d => ¬ sameBond b d) := by
  rw [bondsAt_eq]
  split_ifs <;>
    simp only [List.singleton_append, List.nil_append, List.append_nil, List.pairwise_cons,
      List.mem_cons, List.mem_singleton, List.not_mem_nil, List.Pairwise.nil, forall_eq_or_imp,
      forall_eq, sameBond, false_imp_iff, implies_true, and_true, or_false] <;>
    omega

theorem bonds_pairwise {K : Type} [Field K] (c : Config K) (s : Lattice K) (hn : 2 ≤ c.n) :
    (createArmchairNanotube c s).bonds.Pairwise (fun b d => ¬ sameBond b d) := by
  rw [bonds_eq, List.pairwise_flatMap]
  constructor
  · intro i _
    rw [List.pairwise_flatMap]
    constructor
    · intro j hj
      rw [List.mem_range, Int.lt_toNat] at hj
      exact bondsAt_pairwise _ _ i j hn hj
    · refine (List.pairwise_lt_range _).imp_of_mem ?_
      intro j1 j2 hj1 hj2 hlt x hx y hy
      rw [List.mem_range, Int.lt_toNat] at hj1 hj2
      exact bondsAt_cells_distinct _ _ i j1 i j2 hn hj1 hj2 (Or.inr (Nat.ne_of_lt hlt)) x y hx hy
  · refine (List.pairwise_lt_range _).imp_of_mem ?_
    intro i1 i2 _ _ hlt x hx y hy
    simp only [List.mem_flatMap, List.mem_range, Int.lt_toNat] at hx hy
    obtain ⟨j1, hj1, hx⟩ := hx
    obtain ⟨j2, hj2, hy⟩ := hy
    exact bondsAt_cells_distinct _ _ i1 j1 i2 j2 hn hj1 hj2 (Or.inl (Nat.ne_of_lt hlt)) x y hx hy

/-- Number of entries the loop body appends for one cell of the grid. -/
theorem bondsAt_length (n L : Int) (i j : Nat) (hj : (j : Int) < 2 * n) :
    (bondsAt n L i j).length =
      1 + (if (i : Int) < L - 1 then (if (j : Int) % 2 = 0 then 1 else 2) else 0) := by
  rw [bondsAt_eq]
  split_ifs <;> first | rfl | omega

/-- Number of entries appended for the first `2 * N` columns of ring `i`. -/
theorem ring_bonds_length (n L : Int) (i N : Nat) (hN : (N : Int) ≤ n) :
    ((List.range (2 * N)).flatMap (fun j => bondsAt n L i j)).length =
      N * (2 + (if (i : Int) < L - 1 then 3 else 0)) := by
  induction N with
  | zero => simp
  | succ N ih =>
    have h2 : 2 * (N + 1) = 2 * N + 1 + 1 := by ring
    have hN1 : ((N : Nat) : Int) + 1 ≤ n := by exact_mod_cast hN
    rw [h2, List.range_succ, List.range_succ]
    simp only [List.flatMap_append, List.flatMap_cons, List.flatMap_nil, List.append_nil,
      List.length_append]
    rw [ih (by omega), bondsAt_length n L i (2 * N) (by push_cast; omega),
      bondsAt_length n L i (2 * N + 1) (by push_cast; omega)]
    have hev : ((2 * N : Nat) : Int) % 2 = 0 := by omega
    have hodd : ¬ ((2 * N + 1 : Nat) : Int) % 2 = 0 := by omega
    rw [if_pos hev, if_neg hodd]
    split_ifs <;> ring

/-- Number of entries appended for the first `R` rings, none of them the last. -/
theorem grid_bonds_length (n L : Int) (N R : Nat) (hN : (N : Int) = n) (hR : (R : Int) ≤ L - 1) :
    ((List.range R).flatMap (fun i =>
      (List.range (2 * N)).flatMap (fun j => bondsAt n L i j))).length = R * (N * 5) := by
  induction R with
  | zero => simp
  | succ R ih =>
    have hR1 : ((R : Nat) : Int) + 1 ≤ L - 1 := by exact_mod_cast hR
    rw [List.range_succ, List.flatMap_append, List.length_append, ih (by omega)]
    simp only [List.flatMap_cons, List.flatMap_nil, List.append_nil]
    rw [ring_bonds_length n L R N (by omega), if_pos (by omega)]
    ring

theorem bonds_length {K : Type} [Field K] (c : Config K) (s : Lattice K)
    (hn : 1 ≤ c.n) (hL : 1 ≤ c.lengthSegments) :
    ((createArmchairNanotube c s).bonds.length : Int) =
      2 * c.n * c.lengthSegments + 3 * c.n * (c.lengthSegments - 1) := by
  have h2n : (2 * c.n).toNat = 2 * c.n.toNat := by omega
  have hLs : c.lengthSegments.toNat = (c.lengthSegments - 1).toNat + 1 := by omega
  have hN : ((c.n.toNat : Nat) : Int) = c.n := Int.toNat_of_nonneg (by omega)
  have hR : (((c.lengthSegments - 1).toNat : Nat) : Int) = c.lengthSegments - 1 :=
    Int.toNat_of_nonneg (by omega)
  rw [bonds_eq, h2n, hLs, List.range_succ, List.flatMap_append, List.length_append,
    grid_bonds_length c.n c.lengthSegments c.n.toNat _ hN (by omega)]
  simp only [List.flatMap_cons, List.flatMap_nil, List.append_nil]
  rw [ring_bonds_length c.n c.lengthSegments _ c.n.toNat (by omega), if_neg (by omega)]
  push_cast
  rw [hN, hR]
  ring

theorem sameBond_symm (b d : Int × Int) (h : sameBond b d) : sameBond d b := by
  unfold sameBond at h ⊢
  omega

/-- With `n = 1` and at least two rings, the entries appended for ring 0. -/
theorem first_ring_n1 (L : Int) (hL : 2 ≤ L) :
    (List.range 2).flatMap (fun j => bondsAt 1 L 0 j) =
      [(0, 1), (0, 2), (1, 0), (1, 2), (1, 2)] := by
  have hr : List.range 2 = [0, 1] := rfl
  have hi : ((0 : Nat) : Int) < L - 1 := by
    simp only [Nat.cast_zero]
    omega
  rw [hr]
  simp only [List.flatMap_cons, List.flatMap_nil, List.append_nil, bondsAt_eq, if_pos hi]
  norm_num

/-- C10. For `n ≥ 2` and `L ≥ 1` the bond vector built by
`createArmchairNanotube` holds no unordered pair of atom indices at two
different positions, so its `2*n*L + 3*n*(L-1)` entries are as many distinct
bonds; for `n = 1` and `L ≥ 2` this fails: one bond occurs at two different
positions. -/
theorem bonds_no_duplicates {K : Type} [Field K] (c : Config K) (s : Lattice K) :
    (2 ≤ c.n → 1 ≤ c.lengthSegments →
      (∀ (k1 k2 : Nat) (b d : Int × Int), k1 ≠ k2 →
        (createArmchairNanotube c s).bonds[k1]? = some b →
        (createArmchairNanotube c s).bonds[k2]? = some d → ¬ sameBond b d) ∧
      ((createArmchairNanotube c s).bonds.length : Int) =
        2 * c.n * c.lengthSegments + 3 * c.n * (c.lengthSegments - 1) ∧
      ((((createArmchairNanotube c s).bonds.map normBond).toFinset.card : Nat) : Int) =
        2 * c.n * c.lengthSegments + 3 * c.n * (c.lengthSegments - 1)) ∧
    (c.n = 1 → 2 ≤ c.lengthSegments →
      ∃ (k1 k2 : Nat) (b : Int × Int), k1 ≠ k2 ∧
        (createArmchairNanotube c s).bonds[k1]? = some b ∧
        (createArmchairNanotube c s).bonds[k2]? = some b) := by
  constructor
  · intro hn hL
    have hpw := bonds_pairwise c s hn
    have hlen := bonds_length c s (by omega) hL
    refine ⟨?_, hlen, ?_⟩
    · have key : ∀ (k1 k2 : Nat) (b d : Int × Int), k1 < k2 →
          (createArmchairNanotube c s).bonds[k1]? = some b →
          (createArmchairNanotube c s).bonds[k2]? = some d → ¬ sameBond b d := by
        intro k1 k2 b d hlt hb hd
        obtain ⟨h1, rfl⟩ := List.getElem?_eq_some_iff.1 hb
        obtain ⟨h2, rfl⟩ := List.getElem?_eq_some_iff.1 hd
        exact List.pairwise_iff_getElem.1 hpw k1 k2 h1 h2 hlt
      intro k1 k2 b d hne hb hd hsame
      rcases Nat.lt_or_gt_of_ne hne with h | h
      · exact key k1 k2 b d h hb hd hsame
      · exact key k2 k1 d b h hd hb (sameBond_symm b d hsame)
    · have hnd : ((createArmchairNanotube c s).bonds.map normBond).Nodup := by
        unfold List.Nodup
        rw [List.pairwise_map]
        refine hpw.imp ?_
        intro b d hbd heq
        exact hbd ((normBond_eq_iff b d).1 heq)
      rw [List.toFinset_card_of_nodup hnd, List.length_map]
      exact hlen
  · intro hn hL
    refine ⟨3, 4, ((1 : Int), (2 : Int)), by decide, ?_, ?_⟩
    · rw [bonds_eq, hn]
      obtain ⟨R, hR⟩ : ∃ R, c.lengthSegments.toNat = R + 1 := ⟨c.lengthSegments.toNat - 1, by omega⟩
      rw [hR, List.range_succ_eq_map, List.flatMap_cons]
      have h2 : (2 * (1 : Int)).toNat = 2 := rfl
      rw [h2, first_ring_n1 c.lengthSegments hL, List.getElem?_append_left (by decide)]
      rfl
    · rw [bonds_eq, hn]
      obtain ⟨R, hR⟩ : ∃ R, c.lengthSegments.toNat = R + 1 := ⟨c.lengthSegments.toNat - 1, by omega⟩
      rw [hR, List.range_succ_eq_map, List.flatMap_cons]
      have h2 : (2 * (1 : Int)).toNat = 2 := rfl
      rw [h2, first_ring_n1 c.lengthSegments hL, List.getElem?_append_left (by decide)]
      rfl

/-! ## Coordination numbers -/

theorem countP_flatMap_sum {α β : Type} (p : β → Bool) (f : α → List β) (l : List α) :
    (l.flatMap f).countP p = (l.map (fun a => (f a).countP p)).sum := by
  induction l with
  | nil => rfl
  | cons a l ih => simp [List.flatMap_cons, List.countP_append, ih]

theorem list_range_sum (f : Nat → Nat) (m : Nat) :
    ((List.range m).map f).sum = ∑ i in Finset.range m, f i := by
  induction m with
  | zero => rfl
  | succ m ih => simp [List.range_succ, Finset.sum_range_succ, ih]

/-- A double sum over the grid whose summand vanishes off one cell. -/
theorem grid_sum_single (L M a b : Nat) (ha : a < L) (hb : b < M) (f : Nat → Nat → Nat)
    (hf : ∀ i j, i < L → j < M → (i ≠ a ∨ j ≠ b) → f i j = 0) :
    ∑ i in Finset.range L, ∑ j in Finset.range M, f i j = f a b := by
  rw [Finset.sum_eq_single a]
  · rw [Finset.sum_eq_single b]
    · intro j hj hne
      exact hf a j ha (Finset.mem_range.1 hj) (Or.inr hne)
    · intro hnb
      exact absurd (Finset.mem_range.2 hb) hnb
  · intro i hi hne
    apply Finset.sum_eq_zero
    intro j hj
    exact hf i j (Finset.mem_range.1 hi) (Finset.mem_range.1 hj) (Or.inl hne)
  · intro hna
    exact absurd (Finset.mem_range.2 ha) hna

/-- A double sum over the grid whose summand vanishes everywhere. -/
theorem grid_sum_zero (L M : Nat) (f : Nat → Nat → Nat)
    (hf : ∀ i j, i < L → j < M → f i j = 0) :
    ∑ i in Finset.range L, ∑ j in Finset.range M, f i j = 0 := by
  apply Finset.sum_eq_zero
  intro i hi
  apply Finset.sum_eq_zero
  intro j hj
  exact hf i j (Finset.mem_range.1 hi) (Finset.mem_range.1 hj)

/-- The degree of an atom as a double sum over the cells of the grid. -/
theorem degree_eq_sum {K : Type} [Field K] (c : Config K) (s : Lattice K) (v : Int) :
    degree (createArmchairNanotube c s).bonds v =
      ∑ i in Finset.range c.lengthSegments.toNat, ∑ j in Finset.range (2 * c.n).toNat,
        (bondsAt c.n c.lengthSegments i j).countP (fun b => decide (b.1 = v ∨ b.2 = v)) := by
  unfold degree
  rw [bonds_eq, countP_flatMap_sum, list_range_sum]
  apply Finset.sum_congr rfl
  intro i _
  rw [countP_flatMap_sum, list_range_sum]

/-- How many entries appended for cell `(i, j)` touch atom `v`, split by the
branch of the loop body that appends them. -/
theorem cell_count (n L : Int) (i j : Nat) (v : Int) (hn : 1 ≤ n) (hj : (j : Int) < 2 * n) :
    (bondsAt n L i j).countP (fun b => decide (b.1 = v ∨ b.2 = v)) =
      (if (i : Int) * 2 * n + j = v then (bondsAt n L i j).length else 0)
      + (if (i : Int) * 2 * n + j ≠ v ∧
            (((j : Int) = 2 * n - 1 ∧ (i : Int) * 2 * n + j - (2 * n - 1) = v) ∨
             ((j : Int) ≠ 2 * n - 1 ∧ (i : Int) * 2 * n + j + 1 = v)) then 1 else 0)
      + (if (i : Int) * 2 * n + j ≠ v ∧ (i : Int) < L - 1 ∧ (j : Int) % 2 = 0 ∧
            (i : Int) * 2 * n + j + 2 * n = v then 1 else 0)
      + (if (i : Int) * 2 * n + j ≠ v ∧ (i : Int) < L - 1 ∧ (j : Int) % 2 = 1 ∧
            (i : Int) * 2 * n + j + 2 * n - 1 = v then 1 else 0)
      + (if (i : Int) * 2 * n + j ≠ v ∧ (i : Int) < L - 1 ∧ (j : Int) % 2 = 1 ∧
            (((j : Int) < 2 * n - 1 ∧ (i : Int) * 2 * n + j + 2 * n + 1 = v) ∨
             ((j : Int) = 2 * n - 1 ∧ (i : Int) * 2 * n + j + 1 = v)) then 1 else 0) := by
  rw [bondsAt_length n L i j hj, bondsAt_eq]
  generalize (i : Int) * 2 * n = A
  by_cases hev : (j : Int) % 2 = 0
  · have e0 := eq_true hev
    have e1 := eq_true (show (j : Int) < 2 * n - 1 by omega)
    have e2 := eq_false (show ¬ (j : Int) = 2 * n - 1 by omega)
    have e3 := eq_false (show ¬ (j : Int) % 2 = 1 by omega)
    by_cases hi : (i : Int) < L - 1
    · have e4 := eq_true hi
      simp only [e0, e1, e2, e3, e4, if_true, if_false, List.singleton_append, List.cons_append,
      List.nil_append, List.append_nil, List.countP_cons, List.countP_nil, decide_eq_true_eq,
      ne_eq, not_false_eq_true, true_and, and_true, false_and, and_false, or_false, false_or,
      not_true_eq_false]
      split_ifs <;> omega
    · have e4 := eq_false hi
      simp only [e0, e1, e2, e3, e4, if_true, if_false, List.singleton_append, List.cons_append,
      List.nil_append, List.append_nil, List.countP_cons, List.countP_nil, decide_eq_true_eq,
      ne_eq, not_false_eq_true, true_and, and_true, false_and, and_false, or_false, false_or,
      not_true_eq_false]
      split_ifs <;> omega
  · have e0 := eq_false hev
    have e3 := eq_true (show (j : Int) % 2 = 1 by omega)
    by_cases hlast : (j : Int) = 2 * n - 1
    · have e1 := eq_false (show ¬ (j : Int) < 2 * n - 1 by omega)
      have e2 := eq_true hlast
      by_cases hi : (i : Int) < L - 1
      · have e4 := eq_true hi
        simp only [e0, e1, e2, e3, e4, if_true, if_false, List.singleton_append, List.cons_append,
        List.nil_append, List.append_nil, List.countP_cons, List.countP_nil, decide_eq_true_eq,
        ne_eq, not_false_eq_true, true_and, and_true, false_and, and_false, or_false, false_or,
        not_true_eq_false]
        split_ifs <;> omega
      · have e4 := eq_false hi
        simp only [e0, e1, e2, e3, e4, if_true, if_false, List.singleton_append, List.cons_append,
        List.nil_append, List.append_nil, List.countP_cons, List.countP_nil, decide_eq_true_eq,
        ne_eq, not_false_eq_true, true_and, and_true, false_and, and_false, or_false, false_or,
        not_true_eq_false]
        split_ifs <;> omega
    · have e1 := eq_true (show (j : Int) < 2 * n - 1 by omega)
      have e2 := eq_false hlast
      by_cases hi : (i : Int) < L - 1
      · have e4 := eq_true hi
        simp only [e0, e1, e2, e3, e4, if_true, if_false, List.singleton_append, List.cons_append,
        List.nil_append, List.append_nil, List.countP_cons, List.countP_nil, decide_eq_true_eq,
        ne_eq, not_false_eq_true, true_and, and_true, false_and, and_false, or_false, false_or,
        not_true_eq_false]
        split_ifs <;> omega
      · have e4 := eq_false hi
        simp only [e0, e1, e2, e3, e4, if_true, if_false, List.singleton_append, List.cons_append,
        List.nil_append, List.append_nil, List.countP_cons, List.countP_nil, decide_eq_true_eq,
        ne_eq, not_false_eq_true, true_and, and_true, false_and, and_false, or_false, false_or,
        not_true_eq_false]
        split_ifs <;> omega

theorem next_base (n : Int) (i : Nat) :
    ((i + 1 : Nat) : Int) * 2 * n = (i : Int) * 2 * n + 2 * n := by
  push_cast
  ring

/-- Entries whose first index is atom `(i0, j0)`: those of its own cell. -/
theorem sum_own_cell (n L : Int) (i0 j0 : Nat) (hn : 1 ≤ n) (hi0 : (i0 : Int) < L)
    (hj0 : (j0 : Int) < 2 * n) :
    ∑ i in Finset.range L.toNat, ∑ j in Finset.range (2 * n).toNat,
      (if (i : Int) * 2 * n + j = (i0 : Int) * 2 * n + j0 then (bondsAt n L i j).length else 0)
      = (bondsAt n L i0 j0).length := by
  have h := grid_sum_single L.toNat (2 * n).toNat i0 j0 (by omega) (by omega)
    (fun i j => if (i : Int) * 2 * n + j = (i0 : Int) * 2 * n + j0
      then (bondsAt n L i j).length else 0)
    (by
      intro i j _ hj hne
      have hs := base_sep n i i0 hn
      have hjn : (j : Int) < 2 * n := by omega
      apply if_neg
      omega)
  exact h.trans (if_pos rfl)

/-- Ring entries whose second index is atom `(i0, j0)`: the one appended for
the previous column of the same ring. -/
theorem sum_ring_in (n L : Int) (i0 j0 : Nat) (hn : 1 ≤ n) (hi0 : (i0 : Int) < L)
    (hj0 : (j0 : Int) < 2 * n) :
    ∑ i in Finset.range L.toNat, ∑ j in Finset.range (2 * n).toNat,
      (if (i : Int) * 2 * n + j ≠ (i0 : Int) * 2 * n + j0 ∧
          (((j : Int) = 2 * n - 1 ∧ (i : Int) * 2 * n + j - (2 * n - 1) = (i0 : Int) * 2 * n + j0) ∨
           ((j : Int) ≠ 2 * n - 1 ∧ (i : Int) * 2 * n + j + 1 = (i0 : Int) * 2 * n + j0))
        then 1 else 0) = 1 := by
  by_cases hz : j0 = 0
  · have h := grid_sum_single L.toNat (2 * n).toNat i0 ((2 * n).toNat - 1) (by omega) (by omega)
      (fun i j => if (i : Int) * 2 * n + j ≠ (i0 : Int) * 2 * n + j0 ∧
          (((j : Int) = 2 * n - 1 ∧ (i : Int) * 2 * n + j - (2 * n - 1) = (i0 : Int) * 2 * n + j0) ∨
           ((j : Int) ≠ 2 * n - 1 ∧ (i : Int) * 2 * n + j + 1 = (i0 : Int) * 2 * n + j0))
        then 1 else 0)
      (by
        intro i j _ hj hne
        have hs := base_sep n i i0 hn
        have hjn : (j : Int) < 2 * n := by omega
        apply if_neg
        omega)
    refine h.trans (if_pos ?_)
    have hc : (((2 * n).toNat - 1 : Nat) : Int) = 2 * n - 1 := by omega
    rw [hc]
    omega
  · have h := grid_sum_single L.toNat (2 * n).toNat i0 (j0 - 1) (by omega) (by omega)
      (fun i j => if (i : Int) * 2 * n + j ≠ (i0 : Int) * 2 * n + j0 ∧
          (((j : Int) = 2 * n - 1 ∧ (i : Int) * 2 * n + j - (2 * n - 1) = (i0 : Int) * 2 * n + j0) ∨
           ((j : Int) ≠ 2 * n - 1 ∧ (i : Int) * 2 * n + j + 1 = (i0 : Int) * 2 * n + j0))
        then 1 else 0)
      (by
        intro i j _ hj hne
        have hs := base_sep n i i0 hn
        have hjn : (j : Int) < 2 * n := by omega
        apply if_neg
        omega)
    refine h.trans (if_pos ?_)
    have hc : ((j0 - 1 : Nat) : Int) = (j0 : Int) - 1 := by omega
    rw [hc]
    omega

/-- Entries appended by the even-column branch of the inter-ring step whose second
index is atom `(i0, j0)`. -/
theorem sum_up_even_in (n L : Int) (i0 j0 : Nat) (hn : 1 ≤ n) (hi0 : (i0 : Int) < L)
    (hj0 : (j0 : Int) < 2 * n) :
    ∑ i in Finset.range L.toNat, ∑ j in Finset.range (2 * n).toNat,
      (if (i : Int) * 2 * n + j ≠ (i0 : Int) * 2 * n + j0 ∧ (i : Int) < L - 1 ∧
          (j : Int) % 2 = 0 ∧ (i : Int) * 2 * n + j + 2 * n = (i0 : Int) * 2 * n + j0
        then 1 else 0) = (if 1 ≤ i0 ∧ (j0 : Int) % 2 = 0 then 1 else 0) := by
  by_cases hsrc : 1 ≤ i0 ∧ (j0 : Int) % 2 = 0
  · rw [if_pos hsrc]
    obtain ⟨k, rfl⟩ : ∃ k, i0 = k + 1 := ⟨i0 - 1, by omega⟩
    have hk : ((k + 1 : Nat) : Int) * 2 * n = (k : Int) * 2 * n + 2 * n := next_base n k
    have hkL : (k : Int) + 1 < L := by exact_mod_cast hi0
    have h := grid_sum_single L.toNat (2 * n).toNat k (j0) (by omega) (by omega)
      (fun i j => if (i : Int) * 2 * n + j ≠ ((k + 1 : Nat) : Int) * 2 * n + j0 ∧ (i : Int) < L - 1 ∧
          (j : Int) % 2 = 0 ∧ (i : Int) * 2 * n + j + 2 * n = ((k + 1 : Nat) : Int) * 2 * n + j0
        then 1 else 0)
      (by
        intro i j _ hj hne
        have hs := base_sep n (i + 1) (k + 1) hn
        rw [next_base] at hs
        have hjn : (j : Int) < 2 * n := by omega
        apply if_neg
        omega)
    refine h.trans (if_pos ?_)
    omega
  · rw [if_neg hsrc]
    apply grid_sum_zero
    intro i j _ hj
    have hs := base_sep n (i + 1) i0 hn
    rw [next_base] at hs
    have hjn : (j : Int) < 2 * n := by omega
    apply if_neg
    omega

/-- Entries `(current, current + 2n - 1)` of the odd-column branch whose second
index is atom `(i0, j0)`. -/
theorem sum_up_odd_left_in (n L : Int) (i0 j0 : Nat) (hn : 1 ≤ n) (hi0 : (i0 : Int) < L)
    (hj0 : (j0 : Int) < 2 * n) :
    ∑ i in Finset.range L.toNat, ∑ j in Finset.range (2 * n).toNat,
      (if (i : Int) * 2 * n + j ≠ (i0 : Int) * 2 * n + j0 ∧ (i : Int) < L - 1 ∧
          (j : Int) % 2 = 1 ∧ (i : Int) * 2 * n + j + 2 * n - 1 = (i0 : Int) * 2 * n + j0
        then 1 else 0) = (if 1 ≤ i0 ∧ (j0 : Int) % 2 = 0 then 1 else 0) := by
  by_cases hsrc : 1 ≤ i0 ∧ (j0 : Int) % 2 = 0
  · rw [if_pos hsrc]
    obtain ⟨k, rfl⟩ : ∃ k, i0 = k + 1 := ⟨i0 - 1, by omega⟩
    have hk : ((k + 1 : Nat) : Int) * 2 * n = (k : Int) * 2 * n + 2 * n := next_base n k
    have hkL : (k : Int) + 1 < L := by exact_mod_cast hi0
    have h := grid_sum_single L.toNat (2 * n).toNat k (j0 + 1) (by omega) (by omega)
      (fun i j => if (i : Int) * 2 * n + j ≠ ((k + 1 : Nat) : Int) * 2 * n + j0 ∧ (i : Int) < L - 1 ∧
          (j : Int) % 2 = 1 ∧ (i : Int) * 2 * n + j + 2 * n - 1 = ((k + 1 : Nat) : Int) * 2 * n + j0
        then 1 else 0)
      (by
        intro i j _ hj hne
        have hs := base_sep n (i + 1) (k + 1) hn
        rw [next_base] at hs
        have hjn : (j : Int) < 2 * n := by omega
        apply if_neg
        omega)
    refine h.trans (if_pos ?_)
    have hc : ((j0 + 1 : Nat) : Int) = (j0 : Int) + 1 := by omega
    rw [hc]
    omega
  · rw [if_neg hsrc]
    apply grid_sum_zero
    intro i j _ hj
    have hs := base_sep n (i + 1) i0 hn
    rw [next_base] at hs
    have hjn : (j : Int) < 2 * n := by omega
    apply if_neg
    omega

/-- Entries `(current, current + 2n + 1)` or `(current, current + 1)` of the
odd-column branch whose second index is atom `(i0, j0)`. -/
theorem sum_up_odd_right_in (n L : Int) (i0 j0 : Nat) (hn : 1 ≤ n) (hi0 : (i0 : Int) < L)
    (hj0 : (j0 : Int) < 2 * n) :
    ∑ i in Finset.range L.toNat, ∑ j in Finset.range (2 * n).toNat,
      (if (i : Int) * 2 * n + j ≠ (i0 : Int) * 2 * n + j0 ∧ (i : Int) < L - 1 ∧
          (j : Int) % 2 = 1 ∧
          (((j : Int) < 2 * n - 1 ∧ (i : Int) * 2 * n + j + 2 * n + 1 = (i0 : Int) * 2 * n + j0) ∨
           ((j : Int) = 2 * n - 1 ∧ (i : Int) * 2 * n + j + 1 = (i0 : Int) * 2 * n + j0))
        then 1 else 0) = (if 1 ≤ i0 ∧ (j0 : Int) % 2 = 0 then 1 else 0) := by
  by_cases hsrc : 1 ≤ i0 ∧ (j0 : Int) % 2 = 0
  · rw [if_pos hsrc]
    obtain ⟨k, rfl⟩ : ∃ k, i0 = k + 1 := ⟨i0 - 1, by omega⟩
    have hk : ((k + 1 : Nat) : Int) * 2 * n = (k : Int) * 2 * n + 2 * n := next_base n k
    have hkL : (k : Int) + 1 < L := by exact_mod_cast hi0
    by_cases hz : j0 = 0
    · have h := grid_sum_single L.toNat (2 * n).toNat k ((2 * n).toNat - 1) (by omega) (by omega)
        (fun i j => if (i : Int) * 2 * n + j ≠ ((k + 1 : Nat) : Int) * 2 * n + j0 ∧ (i : Int) < L - 1 ∧
            (j : Int) % 2 = 1 ∧
            (((j : Int) < 2 * n - 1 ∧ (i : Int) * 2 * n + j + 2 * n + 1 = ((k + 1 : Nat) : Int) * 2 * n + j0) ∨
             ((j : Int) = 2 * n - 1 ∧ (i : Int) * 2 * n + j + 1 = ((k + 1 : Nat) : Int) * 2 * n + j0))
          then 1 else 0)
        (by
          intro i j _ hj hne
          have hs := base_sep n (i + 1) (k + 1) hn
          rw [next_base] at hs
          have hjn : (j : Int) < 2 * n := by omega
          apply if_neg
          omega)
      refine h.trans (if_pos ?_)
      have hc : (((2 * n).toNat - 1 : Nat) : Int) = 2 * n - 1 := by omega
      rw [hc]
      omega
    · have h := grid_sum_single L.toNat (2 * n).toNat k (j0 - 1) (by omega) (by omega)
        (fun i j => if (i : Int) * 2 * n + j ≠ ((k + 1 : Nat) : Int) * 2 * n + j0 ∧ (i : Int) < L - 1 ∧
            (j : Int) % 2 = 1 ∧
            (((j : Int) < 2 * n - 1 ∧ (i : Int) * 2 * n + j + 2 * n + 1 = ((k + 1 : Nat) : Int) * 2 * n + j0) ∨
             ((j : Int) = 2 * n - 1 ∧ (i : Int) * 2 * n + j + 1 = ((k + 1 : Nat) : Int) * 2 * n + j0))
          then 1 else 0)
        (by
          intro i j _ hj hne
          have hs := base_sep n (i + 1) (k + 1) hn
          rw [next_base] at hs
          have hjn : (j : Int) < 2 * n := by omega
          apply if_neg
          omega)
      refine h.trans (if_pos ?_)
      have hc : ((j0 - 1 : Nat) : Int) = (j0 : Int) - 1 := by omega
      rw [hc]
      omega
  · rw [if_neg hsrc]
    apply grid_sum_zero
    intro i j _ hj
    have hs := base_sep n (i + 1) i0 hn
    rw [next_base] at hs
    have hjn : (j : Int) < 2 * n := by omega
    apply if_neg
    omega

/-- Number of bond entries that touch the atom of segment `i0` and column `j0`,
for `n ≥ 1`: two ring entries, the entries its own cell sends to the next ring
(one from an even column, two from an odd one, none from the last ring), and
three entries received from the previous ring when the column is even. -/
theorem degree_formula {K : Type} [Field K] (c : Config K) (s : Lattice K) (hn : 1 ≤ c.n)
    (i0 j0 : Nat) (hi0 : (i0 : Int) < c.lengthSegments) (hj0 : (j0 : Int) < 2 * c.n) :
    degree (createArmchairNanotube c s).bonds ((i0 : Int) * 2 * c.n + j0) =
      2 + (if (i0 : Int) < c.lengthSegments - 1 then (if (j0 : Int) % 2 = 0 then 1 else 2) else 0)
        + (if 1 ≤ i0 ∧ (j0 : Int) % 2 = 0 then 3 else 0) := by
  rw [degree_eq_sum]
  rw [Finset.sum_congr rfl (fun i _ => Finset.sum_congr rfl (fun j hj =>
    cell_count c.n c.lengthSegments i j ((i0 : Int) * 2 * c.n + j0) hn
      (by have := Finset.mem_range.1 hj; omega)))]
  simp only [Finset.sum_add_distrib]
  rw [sum_own_cell c.n c.lengthSegments i0 j0 hn hi0 hj0,
    sum_ring_in c.n c.lengthSegments i0 j0 hn hi0 hj0,
    sum_up_even_in c.n c.lengthSegments i0 j0 hn hi0 hj0,
    sum_up_odd_left_in c.n c.lengthSegments i0 j0 hn hi0 hj0,
    sum_up_odd_right_in c.n c.lengthSegments i0 j0 hn hi0 hj0,
    bondsAt_length c.n c.lengthSegments i0 j0 hj0]
  split_ifs <;> omega

/-- Counterexample to C8 as stated: in the compiled-in tube (n = 8, L = 30) the
atom of ring 1, column 0 (index 16, an interior ring) is an endpoint of six bond
entries, not three, and the atom of ring 0, column 0 (index 0, the first ring)
of three, not two. -/
theorem coordination_not_three :
    (2 ≤ shipped.n ∧ 3 ≤ shipped.lengthSegments) ∧
    degree (createArmchairNanotube shipped (Lattice.mk [] [])).bonds 16 = 6 ∧
    degree (createArmchairNanotube shipped (Lattice.mk [] [])).bonds 16 ≠ 3 ∧
    degree (createArmchairNanotube shipped (Lattice.mk [] [])).bonds 0 = 3 ∧
    degree (createArmchairNanotube shipped (Lattice.mk [] [])).bonds 0 ≠ 2 := by
  have h16 := degree_formula shipped (Lattice.mk [] []) (by decide) 1 0 (by decide) (by decide)
  have h0 := degree_formula shipped (Lattice.mk [] []) (by decide) 0 0 (by decide) (by decide)
  have e16 : ((1 : Nat) : Int) * 2 * shipped.n + ((0 : Nat) : Int) = 16 := by decide
  have e0 : ((0 : Nat) : Int) * 2 * shipped.n + ((0 : Nat) : Int) = 0 := by decide
  have r16 : (2 + (if ((1 : Nat) : Int) < shipped.lengthSegments - 1
      then (if ((0 : Nat) : Int) % 2 = 0 then 1 else 2) else 0)
      + (if 1 ≤ 1 ∧ ((0 : Nat) : Int) % 2 = 0 then 3 else 0)) = 6 := by decide
  have r0 : (2 + (if ((0 : Nat) : Int) < shipped.lengthSegments - 1
      then (if ((0 : Nat) : Int) % 2 = 0 then 1 else 2) else 0)
      + (if 1 ≤ 0 ∧ ((0 : Nat) : Int) % 2 = 0 then 3 else 0)) = 3 := by decide
  rw [e16, r16] at h16
  rw [e0, r0] at h0
  refine ⟨⟨by decide, by decide⟩, h16, ?_, h0, ?_⟩
  · rw [h16]; decide
  · rw [h0]; decide

/-- C8, amended. For `n ≥ 2` and `L ≥ 3`, in the bond vector built by
`createArmchairNanotube` an atom of an interior ring (`0 < i < L-1`) is an endpoint
of exactly six entries when its column `j` is even and of exactly four when `j`
is odd; an atom of the first ring (`i = 0`) of three (`j` even) or four (`j` odd);
an atom of the last ring (`i = L-1`) of five (`j` even) or two (`j` odd). -/
theorem coordination_numbers {K : Type} [Field K] (c : Config K) (s : Lattice K)
    (hn : 2 ≤ c.n) (hL : 3 ≤ c.lengthSegments) (i j : Nat)
    (hi : (i : Int) < c.lengthSegments) (hj : (j : Int) < 2 * c.n) :
    ((0 < i ∧ (i : Int) < c.lengthSegments - 1) →
      degree (createArmchairNanotube c s).bonds ((i : Int) * 2 * c.n + j) =
        if (j : Int) % 2 = 0 then 6 else 4) ∧
    (i = 0 →
      degree (createArmchairNanotube c s).bonds ((i : Int) * 2 * c.n + j) =
        if (j : Int) % 2 = 0 then 3 else 4) ∧
    ((i : Int) = c.lengthSegments - 1 →
      degree (createArmchairNanotube c s).bonds ((i : Int) * 2 * c.n + j) =
        if (j : Int) % 2 = 0 then 5 else 2) := by
  have h := degree_formula c s (by omega) i j hi hj
  refine ⟨?_, ?_, ?_⟩
  · rintro ⟨h1, h2⟩
    rw [h]
    split_ifs <;> omega
  · intro h1
    rw [h]
    split_ifs <;> omega
  · intro h1
    rw [h]
    split_ifs <;> omega

/-- Witness for C8: in the compiled-in tube the atom of the last ring (i = 29)
and last column (j = 15), index 479, is an endpoint of exactly two entries. -/
theorem coordination_numbers_witness :
    (2 ≤ shipped.n ∧ 3 ≤ shipped.lengthSegments ∧ ((29 : Nat) : Int) < shipped.lengthSegments ∧
      ((15 : Nat) : Int) < 2 * shipped.n) ∧
    degree (createArmchairNanotube shipped (Lattice.mk [] [])).bonds
      (((29 : Nat) : Int) * 2 * shipped.n + ((15 : Nat) : Int)) = 2 :=
  ⟨⟨by decide, by decide, by decide, by decide⟩,
    (coordination_numbers shipped (Lattice.mk [] []) (by decide) (by decide) 29 15
      (by decide) (by decide)).2.2 (by decide)⟩

/-- Witness for C10: the compiled-in tube (n = 8, L = 30) has 1176 entries and
no repeated bond, while the tube with n = 1 and two rings repeats a bond. -/
theorem bonds_no_duplicates_witness :
    ((2 ≤ shipped.n ∧ 1 ≤ shipped.lengthSegments) ∧
      ((createArmchairNanotube shipped (Lattice.mk [] [])).bonds.length : Int) = 1176) ∧
    ∃ (k1 k2 : Nat) (b : Int × Int), k1 ≠ k2 ∧
      (createArmchairNanotube (Config.mk 1 1 1 2 3 2 (fun _ => 1) (fun _ => 0) : Config ℚ)
        (Lattice.mk [] [])).bonds[k1]? = some b ∧
      (createArmchairNanotube (Config.mk 1 1 1 2 3 2 (fun _ => 1) (fun _ => 0) : Config ℚ)
        (Lattice.mk [] [])).bonds[k2]? = some b :=
  ⟨⟨⟨by decide, by decide⟩,
      ((bonds_no_duplicates shipped (Lattice.mk [] [])).1 (by decide) (by decide)).2.1⟩,
    (bonds_no_duplicates (Config.mk 1 1 1 2 3 2 (fun _ => 1) (fun _ => 0) : Config ℚ)
      (Lattice.mk [] [])).2 rfl (by decide)⟩

end Nanotube
